import Mathlib

/-!
Verification of the knowledge store of the `antigravity-mcp-server` repository
(`src/tools/knowledge.ts`, dispatched from `src/index.ts`).

Strings are modelled as `List Char` (JS strings at character granularity).
The JS `toLowerCase` is modelled per character with ASCII lowering: the only
characters the tokenizer keeps are `\w = [A-Za-z0-9_]`, on which JS
`toLowerCase` coincides with ASCII lowering; every other character is replaced
by a space regardless of its case mapping.
-/

/-- Character class `\w` of the JS regex in `tokenize`
(`src/tools/knowledge.ts`, line 193): ASCII letters, digits, underscore. -/
def isWordChar (c : Char) : Bool :=
  decide ((65 ≤ c.toNat ∧ c.toNat ≤ 90) ∨ (97 ≤ c.toNat ∧ c.toNat ≤ 122) ∨
    (48 ≤ c.toNat ∧ c.toNat ≤ 57) ∨ c.toNat = 95)

/-- Character class `\s` of JS regexes: the ECMAScript WhiteSpace and
LineTerminator code points. -/
def isSpaceChar (c : Char) : Bool :=
  decide ((9 ≤ c.toNat ∧ c.toNat ≤ 13) ∨ c.toNat = 32 ∨ c.toNat = 160 ∨
    c.toNat = 5760 ∨ (8192 ≤ c.toNat ∧ c.toNat ≤ 8202) ∨ c.toNat = 8232 ∨
    c.toNat = 8233 ∨ c.toNat = 8239 ∨ c.toNat = 8287 ∨ c.toNat = 12288 ∨
    c.toNat = 65279)

/-- Per-character model of JS `String.prototype.toLowerCase` (ASCII range). -/
def jsToLower (c : Char) : Char :=
  if 65 ≤ c.toNat ∧ c.toNat ≤ 90 then Char.ofNat (c.toNat + 32) else c

/-- One step of `.replace(/[^\w\s]/g, " ")` (`src/tools/knowledge.ts`,
line 193): a character that is neither a word character nor whitespace
becomes a space. -/
def replaceNonWord (c : Char) : Char :=
  if !isWordChar c && !isSpaceChar c then ' ' else c

/-- Split a character list at every whitespace character.  JS
`.split(/\s+/)` splits on whitespace runs; splitting at every single
whitespace character instead yields the same list once empty pieces are
dropped, which `tokenize` does with its final filter. -/
def splitWs : List Char → List (List Char)
  | [] => [[]]
  | c :: cs =>
    if isSpaceChar c then [] :: splitWs cs
    else (c :: (splitWs cs).headD []) :: (splitWs cs).tail

/-- `tokenize` (`src/tools/knowledge.ts`, lines 190-196): lower-case,
replace every character that is not a letter, digit or underscore by
whitespace, split on whitespace, drop empty tokens. -/
def tokenize (text : List Char) : List (List Char) :=
  (splitWs ((text.map jsToLower).map replaceNonWord)).filter fun t => decide (0 < t.length)

/-- JS `Array.prototype.join(" ")` on a list of tokens. -/
def joinSpace : List (List Char) → List Char
  | [] => []
  | [t] => t
  | t :: ts => t ++ ' ' :: joinSpace ts

theorem toNat_ofNat_of_small {n : Nat} (h : n < 55296) : (Char.ofNat n).toNat = n := by
  unfold Char.ofNat
  rw [dif_pos (Or.inl h)]
  rfl

theorem jsToLower_not_upper (c : Char) :
    ¬(65 ≤ (jsToLower c).toNat ∧ (jsToLower c).toNat ≤ 90) := by
  by_cases h : 65 ≤ c.toNat ∧ c.toNat ≤ 90
  · rw [jsToLower, if_pos h, toNat_ofNat_of_small (by omega)]
    omega
  · rw [jsToLower, if_neg h]
    exact h

theorem jsToLower_fix_of_not_upper {c : Char} (h : ¬(65 ≤ c.toNat ∧ c.toNat ≤ 90)) :
    jsToLower c = c := by
  rw [jsToLower, if_neg h]

theorem isWordChar_isSpaceChar_false {c : Char} (h : isWordChar c = true) :
    isSpaceChar c = false := by
  simp only [isWordChar, decide_eq_true_eq] at h
  simp only [isSpaceChar, decide_eq_false_iff_not]
  omega

theorem replaceNonWord_fix_of_word {c : Char} (h : isWordChar c = true) :
    replaceNonWord c = c := by
  simp [replaceNonWord, h]

/-- The characters produced by the lower-and-replace normalisation are,
when not whitespace, word characters fixed by lower-casing. -/
theorem normChar_spec (a : Char)
    (h : isSpaceChar (replaceNonWord (jsToLower a)) = false) :
    isWordChar (replaceNonWord (jsToLower a)) = true ∧
      jsToLower (replaceNonWord (jsToLower a)) = replaceNonWord (jsToLower a) := by
  have hword : isWordChar (replaceNonWord (jsToLower a)) = true := by
    cases hw : isWordChar (jsToLower a) with
    | true => rw [replaceNonWord_fix_of_word hw]; exact hw
    | false =>
      cases hs : isSpaceChar (jsToLower a) with
      | true =>
        have hkeep : replaceNonWord (jsToLower a) = jsToLower a := by
          unfold replaceNonWord
          rw [if_neg (by simp [hs])]
        rw [hkeep, hs] at h
        exact absurd h (by simp)
      | false =>
        have hsp : replaceNonWord (jsToLower a) = ' ' := by
          unfold replaceNonWord
          rw [if_pos (by simp [hw, hs])]
        rw [hsp] at h
        exact absurd h (by simp [isSpaceChar])
  refine ⟨hword, ?_⟩
  apply jsToLower_fix_of_not_upper
  have halt : replaceNonWord (jsToLower a) = jsToLower a ∨
      replaceNonWord (jsToLower a) = ' ' := by
    unfold replaceNonWord
    split
    · exact Or.inr rfl
    · exact Or.inl rfl
  rcases halt with heq | heq
  · rw [heq]
    exact jsToLower_not_upper a
  · rw [heq]
    decide

theorem splitWs_ne_nil (l : List Char) : splitWs l ≠ [] := by
  cases l with
  | nil => simp [splitWs]
  | cons c cs =>
    simp only [splitWs]
    split <;> simp

theorem mem_splitWs {l t : List Char} (ht : t ∈ splitWs l) {c : Char} (hc : c ∈ t) :
    c ∈ l ∧ isSpaceChar c = false := by
  induction l generalizing t with
  | nil =>
    simp only [splitWs, List.mem_singleton] at ht
    subst ht
    simp at hc
  | cons a as ih =>
    simp only [splitWs] at ht
    by_cases ha : isSpaceChar a = true
    · rw [if_pos ha] at ht
      rcases List.mem_cons.mp ht with h | h
      · subst h; simp at hc
      · have := ih h hc
        exact ⟨List.mem_cons_of_mem _ this.1, this.2⟩
    · rw [if_neg ha] at ht
      obtain ⟨u, us, hsplit⟩ : ∃ u us, splitWs as = u :: us := by
        cases h : splitWs as with
        | nil => exact absurd h (splitWs_ne_nil as)
        | cons u us => exact ⟨u, us, rfl⟩
      rw [hsplit] at ht
      simp only [List.headD_cons, List.tail_cons] at ht
      rcases List.mem_cons.mp ht with h | h
      · subst h
        rcases List.mem_cons.mp hc with rfl | hcu
        · exact ⟨List.mem_cons_self _ _, Bool.not_eq_true _ ▸ ha⟩
        · have hu : u ∈ splitWs as := by rw [hsplit]; exact List.mem_cons_self u us
          have := ih hu hcu
          exact ⟨List.mem_cons_of_mem _ this.1, this.2⟩
      · have hmem : t ∈ splitWs as := by rw [hsplit]; exact List.mem_cons_of_mem _ h
        have := ih hmem hc
        exact ⟨List.mem_cons_of_mem _ this.1, this.2⟩

theorem splitWs_no_space {l : List Char} (h : ∀ c ∈ l, isSpaceChar c = false) :
    splitWs l = [l] := by
  induction l with
  | nil => rfl
  | cons a as ih =>
    have ha := h a (List.mem_cons_self a as)
    rw [splitWs, if_neg (by simp [ha]), ih (fun c hc => h c (List.mem_cons_of_mem a hc))]
    simp

theorem splitWs_append {s : Char} (hs : isSpaceChar s = true) (l₁ l₂ : List Char)
    (h₁ : ∀ c ∈ l₁, isSpaceChar c = false) :
    splitWs (l₁ ++ s :: l₂) = l₁ :: splitWs l₂ := by
  induction l₁ with
  | nil =>
    simp only [List.nil_append, splitWs, if_pos hs]
  | cons a as ih =>
    have ha := h₁ a (List.mem_cons_self a as)
    rw [List.cons_append, splitWs, if_neg (by simp [ha]),
      ih (fun c hc => h₁ c (List.mem_cons_of_mem a hc))]
    simp

theorem mem_joinSpace {ts : List (List Char)} {c : Char} (hc : c ∈ joinSpace ts) :
    c = ' ' ∨ ∃ t ∈ ts, c ∈ t := by
  induction ts with
  | nil => simp [joinSpace] at hc
  | cons t ts ih =>
    cases ts with
    | nil =>
      simp only [joinSpace] at hc
      exact Or.inr ⟨t, List.mem_cons_self _ _, hc⟩
    | cons u us =>
      have hJ : joinSpace (t :: u :: us) = t ++ ' ' :: joinSpace (u :: us) := rfl
      rw [hJ] at hc
      rcases List.mem_append.mp hc with h | h
      · exact Or.inr ⟨t, List.mem_cons_self _ _, h⟩
      · rcases List.mem_cons.mp h with rfl | h
        · exact Or.inl rfl
        · rcases ih h with h' | ⟨v, hv, hcv⟩
          · exact Or.inl h'
          · exact Or.inr ⟨v, List.mem_cons_of_mem _ hv, hcv⟩

theorem splitWs_joinSpace {ts : List (List Char)} (hne : ts ≠ [])
    (h : ∀ t ∈ ts, t ≠ [] ∧ ∀ c ∈ t, isSpaceChar c = false) :
    splitWs (joinSpace ts) = ts := by
  induction ts with
  | nil => exact absurd rfl hne
  | cons t ts ih =>
    cases ts with
    | nil =>
      simp only [joinSpace]
      exact splitWs_no_space ((h t (List.mem_cons_self _ _)).2)
    | cons u us =>
      have hJ : joinSpace (t :: u :: us) = t ++ ' ' :: joinSpace (u :: us) := rfl
      rw [hJ, splitWs_append (by decide) _ _ ((h t (List.mem_cons_self _ _)).2),
        ih (by simp) (fun v hv => h v (List.mem_cons_of_mem _ hv))]

theorem tokenize_tokens_ok {x t : List Char} (ht : t ∈ tokenize x) :
    t ≠ [] ∧ ∀ c ∈ t, isWordChar c = true ∧ isSpaceChar c = false ∧ jsToLower c = c := by
  rw [tokenize, List.mem_filter] at ht
  obtain ⟨hmem, hlen⟩ := ht
  refine ⟨?_, ?_⟩
  · have : 0 < t.length := of_decide_eq_true hlen
    exact List.ne_nil_of_length_pos this
  · intro c hc
    obtain ⟨hcl, hcs⟩ := mem_splitWs hmem hc
    obtain ⟨b, hbx, hb⟩ := List.mem_map.mp hcl
    obtain ⟨a, hax, hab⟩ := List.mem_map.mp hbx
    have heq : replaceNonWord (jsToLower a) = c := by rw [hab, hb]
    have hsp : isSpaceChar (replaceNonWord (jsToLower a)) = false := by
      rw [heq]; exact hcs
    obtain ⟨hw, hlow⟩ := normChar_spec a hsp
    rw [heq] at hw hlow
    exact ⟨hw, hcs, hlow⟩

theorem map_fix {f : Char → Char} {l : List Char} (h : ∀ c ∈ l, f c = c) :
    l.map f = l := by
  induction l with
  | nil => rfl
  | cons a as ih =>
    rw [List.map_cons, h a (List.mem_cons_self _ _),
      ih (fun c hc => h c (List.mem_cons_of_mem a hc))]

/-- C8: tokenization is idempotent under re-joining with a single space:
`tokenize` applied to the space-join of `tokenize x` yields exactly
`tokenize x`, for every input string. -/
theorem tokenize_idempotent_rejoin (x : List Char) :
    tokenize (joinSpace (tokenize x)) = tokenize x := by
  by_cases hne : tokenize x = []
  · rw [hne]; rfl
  · have hok : ∀ u ∈ tokenize x, u ≠ [] ∧
        ∀ c ∈ u, isWordChar c = true ∧ isSpaceChar c = false ∧ jsToLower c = c :=
      fun u hu => tokenize_tokens_ok hu
    have hfix : ∀ c ∈ joinSpace (tokenize x), jsToLower c = c ∧ replaceNonWord c = c := by
      intro c hc
      rcases mem_joinSpace hc with rfl | ⟨v, hv, hcv⟩
      · exact ⟨by decide, by decide⟩
      · obtain ⟨hw, _, hlow⟩ := (hok v hv).2 c hcv
        exact ⟨hlow, replaceNonWord_fix_of_word hw⟩
    show (splitWs (((joinSpace (tokenize x)).map jsToLower).map replaceNonWord)).filter
        (fun t => decide (0 < t.length)) = tokenize x
    rw [map_fix (fun c hc => (hfix c hc).1)]
    rw [map_fix (fun c hc => (hfix c hc).2)]
    rw [splitWs_joinSpace hne
      (fun u hu => ⟨(hok u hu).1, fun c hc => ((hok u hu).2 c hc).2.1⟩)]
    apply List.filter_eq_self.mpr
    intro u hu
    simp only [decide_eq_true_eq]
    exact List.length_pos.mpr (hok u hu).1

/-! ## Data model and relevance scorer -/

/-- The `scope` union type of the TypeScript `KnowledgeItem` interface. -/
inductive ItemScope where
  | global
  | project
deriving DecidableEq, Repr

/-- The `scope` argument of `search_knowledge`. -/
inductive SearchScope where
  | global
  | project
  | all
deriving DecidableEq, Repr

/-- `KnowledgeItem` (`src/tools/knowledge.ts`, lines 48-57), the declared
shape of a full on-disk record. -/
structure KnowledgeItem where
  id : List Char
  title : List Char
  content : List Char
  tags : List (List Char)
  scope : ItemScope
  projectPath : Option (List Char)
  createdAt : List Char
  updatedAt : List Char
deriving DecidableEq, Repr

/-- JS `hay.includes(needle)`: `needle` occurs as a contiguous substring of
`hay` (true for the empty needle). -/
def strIncludes (hay needle : List Char) : Bool :=
  match hay with
  | [] => needle.isEmpty
  | _ :: t => needle.isPrefixOf hay || strIncludes t needle

/-- `calculateRelevanceScore` (`src/tools/knowledge.ts`, lines 198-238),
with the three field loops written as left folds over the accumulated
score, exactly mirroring the `score +=` statements. -/
def calculateRelevanceScore (item : KnowledgeItem) (queryTokens : List (List Char)) : Int :=
  let titleTokens := tokenize item.title
  let contentTokens := tokenize item.content
  let tagTokens := item.tags.map (fun t => t.map jsToLower)
  queryTokens.foldl
    (fun score queryToken =>
      let score := titleTokens.foldl
        (fun s titleToken =>
          if titleToken = queryToken then s + 10
          else if strIncludes titleToken queryToken then s + 5
          else s) score
      let score := tagTokens.foldl
        (fun s tagToken =>
          if tagToken = queryToken then s + 8
          else if strIncludes tagToken queryToken then s + 4
          else s) score
      let score := contentTokens.foldl
        (fun s contentToken =>
          if contentToken = queryToken then s + 2
          else if strIncludes contentToken queryToken then s + 1
          else s) score
      score)
    0

/-- Modelled from the spec's wording for one (query token, field token)
pair: the exact-match weight if the field token equals the query token,
else the substring weight if the field token contains the query token,
else zero. -/
def pairScore (exactW subW : Int) (queryToken fieldToken : List Char) : Int :=
  if fieldToken = queryToken then exactW
  else if strIncludes fieldToken queryToken then subW
  else 0

/-- Spec-style score of a single query token against an item: the sum of
the pair scores over all title tokens (10/5), whole lower-cased tags (8/4)
and content tokens (2/1). -/
def queryTokenScore (item : KnowledgeItem) (q : List Char) : Int :=
  ((tokenize item.title).map (pairScore 10 5 q)).sum
    + ((item.tags.map (fun t => t.map jsToLower)).map (pairScore 8 4 q)).sum
    + ((tokenize item.content).map (pairScore 2 1 q)).sum

/-- The relevance score as the spec states it: a sum over all
(query token, field token) pairs. -/
def specRelevanceScore (item : KnowledgeItem) (qts : List (List Char)) : Int :=
  (qts.map (queryTokenScore item)).sum

theorem foldl_step_sum {α : Type} (f : Int → α → Int) (g : α → Int)
    (hf : ∀ s x, f s x = s + g x) (l : List α) (init : Int) :
    l.foldl f init = init + (l.map g).sum := by
  induction l generalizing init with
  | nil => simp
  | cons a as ih =>
    rw [List.foldl_cons, hf, ih, List.map_cons, List.sum_cons]
    ring

theorem foldl_if_add (w1 w2 : Int) (q : List Char) (l : List (List Char)) (init : Int) :
    l.foldl (fun s ft =>
        if ft = q then s + w1 else if strIncludes ft q then s + w2 else s) init
      = init + (l.map (pairScore w1 w2 q)).sum := by
  apply foldl_step_sum
  intro s x
  unfold pairScore
  by_cases h1 : x = q
  · rw [if_pos h1, if_pos h1]
  · rw [if_neg h1, if_neg h1]
    by_cases h2 : strIncludes x q = true
    · rw [if_pos h2, if_pos h2]
    · rw [if_neg h2, if_neg h2]
      ring

theorem calcScore_eq_spec (item : KnowledgeItem) (qts : List (List Char)) :
    calculateRelevanceScore item qts = specRelevanceScore item qts := by
  unfold calculateRelevanceScore specRelevanceScore
  rw [foldl_step_sum _ (queryTokenScore item) ?_ qts 0]
  · rw [Int.zero_add]
  · intro s q
    simp only
    rw [foldl_if_add, foldl_if_add, foldl_if_add]
    unfold queryTokenScore
    ring

theorem pairScore_nonneg {w1 w2 : Int} (h1 : 0 ≤ w1) (h2 : 0 ≤ w2)
    (q ft : List Char) : 0 ≤ pairScore w1 w2 q ft := by
  unfold pairScore
  split
  · exact h1
  · split
    · exact h2
    · exact le_refl 0

theorem map_pairScore_sum_nonneg {w1 w2 : Int} (h1 : 0 ≤ w1) (h2 : 0 ≤ w2)
    (q : List Char) (l : List (List Char)) : 0 ≤ (l.map (pairScore w1 w2 q)).sum := by
  apply List.sum_nonneg
  intro x hx
  obtain ⟨ft, _, hft⟩ := List.mem_map.mp hx
  exact hft ▸ pairScore_nonneg h1 h2 q ft

theorem queryTokenScore_nonneg (item : KnowledgeItem) (q : List Char) :
    0 ≤ queryTokenScore item q := by
  unfold queryTokenScore
  have t1 := @map_pairScore_sum_nonneg 10 5 (by norm_num) (by norm_num) q (tokenize item.title)
  have t2 := @map_pairScore_sum_nonneg 8 4 (by norm_num) (by norm_num) q
    (item.tags.map (fun t => t.map jsToLower))
  have t3 := @map_pairScore_sum_nonneg 2 1 (by norm_num) (by norm_num) q (tokenize item.content)
  linarith

theorem specScore_nonneg (item : KnowledgeItem) (qts : List (List Char)) :
    0 ≤ specRelevanceScore item qts := by
  apply List.sum_nonneg
  intro x hx
  obtain ⟨q, _, hq⟩ := List.mem_map.mp hx
  exact hq ▸ queryTokenScore_nonneg item q

/-- C1: the relevance score equals the spec's sum over all
(query token, field token) pairs — title 10/5, whole lower-cased tag 8/4,
content 2/1, exact vs proper substring — and is a non-negative integer. -/
theorem relevance_score_spec (item : KnowledgeItem) (qts : List (List Char)) :
    calculateRelevanceScore item qts = specRelevanceScore item qts ∧
      0 ≤ calculateRelevanceScore item qts := by
  refine ⟨calcScore_eq_spec item qts, ?_⟩
  rw [calcScore_eq_spec]
  exact specScore_nonneg item qts

/-- C9: appending one query token that exactly equals some title token
strictly increases the score. -/
theorem score_monotone_exact_title_token (item : KnowledgeItem)
    (qts : List (List Char)) (t : List Char) (ht : t ∈ tokenize item.title) :
    calculateRelevanceScore item qts < calculateRelevanceScore item (qts ++ [t]) := by
  rw [calcScore_eq_spec, calcScore_eq_spec]
  unfold specRelevanceScore
  rw [List.map_append, List.sum_append, List.map_singleton, List.sum_singleton]
  have h10 : (10 : Int) ≤ queryTokenScore item t := by
    unfold queryTokenScore
    have hmem : pairScore 10 5 t t ∈ (tokenize item.title).map (pairScore 10 5 t) :=
      List.mem_map_of_mem (pairScore 10 5 t) ht
    have hx : pairScore 10 5 t t = 10 := by
      unfold pairScore
      rw [if_pos rfl]
    have hle : pairScore 10 5 t t ≤ ((tokenize item.title).map (pairScore 10 5 t)).sum :=
      List.single_le_sum
        (fun x hx => by
          obtain ⟨ft, _, hft⟩ := List.mem_map.mp hx
          exact hft ▸ pairScore_nonneg (by norm_num) (by norm_num) t ft)
        _ hmem
    have t2 := @map_pairScore_sum_nonneg 8 4 (by norm_num) (by norm_num) t
      (item.tags.map (fun u => u.map jsToLower))
    have t3 := @map_pairScore_sum_nonneg 2 1 (by norm_num) (by norm_num) t
      (tokenize item.content)
    rw [hx] at hle
    linarith
  linarith

/-- C9 witness: the item titled "a" with empty query gains score 10 from
appending the exact title token "a". -/
theorem score_monotone_exact_title_token_witness :
    ['a'] ∈ tokenize (['a'] : List Char) ∧
      calculateRelevanceScore ⟨['1'], ['a'], [], [], .global, none, [], []⟩ [] <
        calculateRelevanceScore ⟨['1'], ['a'], [], [], .global, none, [], []⟩ ([] ++ [['a']]) :=
  ⟨by decide, score_monotone_exact_title_token
    ⟨['1'], ['a'], [], [], .global, none, [], []⟩ [] ['a'] (by decide)⟩

/-! ## Filter chain -/

/-- `filterByScope` (`src/tools/knowledge.ts`, lines 240-261).  JS
`!projectPath` is true both for `undefined` and for the empty string, so a
supplied empty path falls into the no-path branch. -/
def filterByScope (item : KnowledgeItem) (scope : SearchScope)
    (projectPath : Option (List Char)) : Bool :=
  if scope = .all then true
  else if scope = .global then decide (item.scope = .global)
  else if scope = .project then
    if projectPath.getD [] = [] then decide (item.scope = .project)
    else decide (item.scope = .project) && decide (item.projectPath = projectPath)
  else true

/-- `filterByTags` (`src/tools/knowledge.ts`, lines 263-270).  JS
`!tags || tags.length === 0` passes everything; otherwise `tags.some`
checks membership of the lower-cased requested tag among the lower-cased
item tags. -/
def filterByTags (item : KnowledgeItem) (tags : Option (List (List Char))) : Bool :=
  match tags with
  | none => true
  | some ts =>
    if ts.length = 0 then true
    else
      let itemTagsLower := item.tags.map (fun t => t.map jsToLower)
      ts.any (fun tag => itemTagsLower.contains (tag.map jsToLower))

/-- C6: the tag filter passes exactly when the request is absent or empty,
or some item tag equals (case-insensitively) some requested tag — an OR
across requested tags; in particular an item tagged ["a","b"] passes the
filter ["b","z"] but not ["z","y"]. -/
theorem tag_filter_or_semantics :
    (∀ (item : KnowledgeItem) (tags : Option (List (List Char))),
      filterByTags item tags = true ↔
        (tags = none ∨ tags = some [] ∨
          ∃ rt ∈ tags.getD [], ∃ it ∈ item.tags, it.map jsToLower = rt.map jsToLower))
    ∧ filterByTags ⟨[], [], [], [['a'], ['b']], .global, none, [], []⟩
        (some [['b'], ['z']]) = true
    ∧ filterByTags ⟨[], [], [], [['a'], ['b']], .global, none, [], []⟩
        (some [['z'], ['y']]) = false := by
  refine ⟨?_, by decide, by decide⟩
  intro item tags
  match tags with
  | none => simp [filterByTags]
  | some ts =>
    cases ts with
    | nil => simp [filterByTags]
    | cons t ts' =>
      simp only [filterByTags, List.length_cons, Option.getD_some]
      rw [if_neg (by simp)]
      constructor
      · intro h
        obtain ⟨rt, hrt, hmem⟩ := List.any_eq_true.mp h
        rw [List.contains_iff_exists_mem_beq] at hmem
        obtain ⟨x, hx, hbeq⟩ := hmem
        obtain ⟨it, hit, hitx⟩ := List.mem_map.mp hx
        refine Or.inr (Or.inr ⟨rt, hrt, it, hit, ?_⟩)
        rw [hitx]
        exact (beq_iff_eq.mp hbeq).symm
      · rintro (h | h | ⟨rt, hrt, it, hit, heq⟩)
        · exact absurd h (by simp)
        · exact absurd h (by simp)
        · apply List.any_eq_true.mpr
          refine ⟨rt, hrt, ?_⟩
          rw [List.contains_iff_exists_mem_beq]
          exact ⟨it.map jsToLower, List.mem_map_of_mem _ hit, beq_iff_eq.mpr heq.symm⟩

/-! ## Search orchestrator -/

/-- One entry of the `results` array in `handleSearchKnowledge`. -/
structure SearchResult where
  item : KnowledgeItem
  score : Int
deriving DecidableEq, Repr

/-- The arguments of `search_knowledge` as the handler reads them
(no schema parse happens before the handler; `?? 10` and `?? "all"`
supply the defaults). -/
structure SearchInput where
  query : List Char
  tags : Option (List (List Char))
  scope : Option SearchScope
  limit : Option Int

/-- On-disk state visible to `handleSearchKnowledge`: the ids enumerated
from the index (insertion order of `Object.entries`) and the per-id full
record files. -/
structure SearchStore where
  indexIds : List (List Char)
  records : List (List Char × KnowledgeItem)

/-- Lookup by id (JS object property access / per-id record file read). -/
def getKey {α : Type} : List (List Char × α) → List Char → Option α
  | [], _ => none
  | (k, v) :: rest, key => if k = key then some v else getKey rest key

/-- Stable insertion of one result into a list sorted by descending score. -/
def insertDesc (x : SearchResult) : List SearchResult → List SearchResult
  | [] => [x]
  | y :: ys => if x.score < y.score then y :: insertDesc x ys else x :: y :: ys

/-- `results.sort((a, b) => b.score - a.score)` (line 360): stable sort by
descending score (JS `Array.prototype.sort` is stable). -/
def sortByScoreDesc : List SearchResult → List SearchResult
  | [] => []
  | x :: xs => insertDesc x (sortByScoreDesc xs)

/-- The body of the match loop of `handleSearchKnowledge`
(lines 342-357) for one loaded record: apply the scope filter (the call
at line 343 passes no project path), then the tag filter, then score, and
keep the item only when the score is positive. -/
def scoreCandidate (input : SearchInput) (fullItem : KnowledgeItem) : Option SearchResult :=
  if filterByScope fullItem (input.scope.getD .all) none = true then
    if filterByTags fullItem input.tags = true then
      let score := calculateRelevanceScore fullItem (tokenize input.query)
      if 0 < score then some ⟨fullItem, score⟩ else none
    else none
  else none

/-- The match loop of `handleSearchKnowledge` (lines 335-357): enumerate
index ids, load the full record (skip on miss), filter and score; then
sort by descending score (line 360). -/
def rankedMatches (st : SearchStore) (input : SearchInput) : List SearchResult :=
  sortByScoreDesc (st.indexIds.filterMap fun id =>
    match getKey st.records id with
    | none => none
    | some fullItem => scoreCandidate input fullItem)

/-- JS `arr.slice(0, e)`: a negative end counts from the end of the
array, and the result is clamped to the array. -/
def jsSlice {α : Type} (l : List α) (e : Int) : List α :=
  l.take (if e < 0 then e + l.length else e).toNat

/-- `handleSearchKnowledge` (`src/tools/knowledge.ts`, lines 325-402),
modelled up to the returned `limitedResults` list (line 363); the
remainder of the handler only formats that list as text. -/
def handleSearchKnowledge (st : SearchStore) (input : SearchInput) : List SearchResult :=
  jsSlice (rankedMatches st input) (input.limit.getD 10)

theorem insertDesc_perm (x : SearchResult) (l : List SearchResult) :
    (insertDesc x l).Perm (x :: l) := by
  induction l with
  | nil => exact List.Perm.refl _
  | cons y ys ih =>
    rw [insertDesc]
    split
    · exact ((ih.cons y).trans (List.Perm.swap x y ys))
    · exact List.Perm.refl _

theorem sortByScoreDesc_perm (l : List SearchResult) :
    (sortByScoreDesc l).Perm l := by
  induction l with
  | nil => exact List.Perm.refl _
  | cons x xs ih => exact (insertDesc_perm x (sortByScoreDesc xs)).trans (ih.cons x)

/-- Anything returned by the search was loaded from the store, passed both
filters, and carries its positive relevance score. -/
theorem mem_search {st : SearchStore} {input : SearchInput} {r : SearchResult}
    (h : r ∈ handleSearchKnowledge st input) :
    ∃ id ∈ st.indexIds, getKey st.records id = some r.item ∧
      filterByScope r.item (input.scope.getD .all) none = true ∧
      filterByTags r.item input.tags = true ∧
      r.score = calculateRelevanceScore r.item (tokenize input.query) ∧ 0 < r.score := by
  have h1 : r ∈ rankedMatches st input := List.take_subset _ _ h
  rw [rankedMatches] at h1
  have h2 := (sortByScoreDesc_perm _).mem_iff.mp h1
  obtain ⟨id, hid, hsome⟩ := List.mem_filterMap.mp h2
  refine ⟨id, hid, ?_⟩
  rcases hk : getKey st.records id with _ | fullItem
  · rw [hk] at hsome
    exact absurd hsome (by simp)
  · rw [hk] at hsome
    have hc : scoreCandidate input fullItem = some r := hsome
    unfold scoreCandidate at hc
    by_cases hsc : filterByScope fullItem (input.scope.getD .all) none = true
    · rw [if_pos hsc] at hc
      by_cases htg : filterByTags fullItem input.tags = true
      · rw [if_pos htg] at hc
        have hc2 : (if 0 < calculateRelevanceScore fullItem (tokenize input.query) then
            some (⟨fullItem, calculateRelevanceScore fullItem (tokenize input.query)⟩ :
              SearchResult)
          else none) = some r := hc
        by_cases hpos : 0 < calculateRelevanceScore fullItem (tokenize input.query)
        · rw [if_pos hpos] at hc2
          obtain rfl := Option.some_injective _ hc2
          exact ⟨rfl, hsc, htg, rfl, hpos⟩
        · rw [if_neg hpos] at hc2
          exact absurd hc2 (by simp)
      · rw [if_neg htg] at hc
        exact absurd hc (by simp)
    · rw [if_neg hsc] at hc
      exact absurd hc (by simp)

theorem filterByScope_global_true {item : KnowledgeItem}
    (h : filterByScope item .global none = true) : item.scope = .global := by
  simpa [filterByScope] using h

theorem filterByScope_project_none_true {item : KnowledgeItem}
    (h : filterByScope item .project none = true) : item.scope = .project := by
  simpa [filterByScope] using h

/-- C5 counterexample: with a caller-supplied empty path, the scope filter
accepts a project item whose `projectPath` does not equal the caller's
path (JS treats the empty string as falsy, so the path check is skipped). -/
theorem scope_filter_empty_path_cex :
    filterByScope ⟨['1'], [], [], [], .project, some ['/', 'x'], [], []⟩ .project (some []) = true
      ∧ (⟨['1'], [], [], [], .project, some ['/', 'x'], [], []⟩ : KnowledgeItem).projectPath ≠
          some [] := by
  decide

/-- C5 (amended): the scope filter accepts as specified, except that a
caller-supplied empty path is treated as absent; consequently a search
with scope "global" only returns global items and a search with scope
"project" only returns project items. -/
theorem scope_filter_spec_amended :
    (∀ (item : KnowledgeItem) (scope : SearchScope) (pp : Option (List Char)),
      filterByScope item scope pp = true ↔
        (scope = .all ∨
          (scope = .global ∧ item.scope = .global) ∨
          (scope = .project ∧ (pp = none ∨ pp = some []) ∧ item.scope = .project) ∨
          (scope = .project ∧ ∃ p, pp = some p ∧ p ≠ [] ∧ item.scope = .project ∧
            item.projectPath = some p)))
    ∧ (∀ (st : SearchStore) (input : SearchInput) (r : SearchResult),
        input.scope = some .global → r ∈ handleSearchKnowledge st input →
          r.item.scope = .global)
    ∧ (∀ (st : SearchStore) (input : SearchInput) (r : SearchResult),
        input.scope = some .project → r ∈ handleSearchKnowledge st input →
          r.item.scope = .project) := by
  refine ⟨?_, ?_, ?_⟩
  · intro item scope pp
    cases scope with
    | all => simp [filterByScope]
    | global => simp [filterByScope]
    | project =>
      rcases pp with _ | p
      · simp [filterByScope]
      · by_cases hp : p = []
        · subst hp
          simp [filterByScope]
        · have hL : filterByScope item .project (some p) =
              (decide (item.scope = .project) && decide (item.projectPath = some p)) := by
            unfold filterByScope
            rw [if_neg (by simp), if_neg (by simp), if_pos rfl,
              if_neg (by simpa using hp)]
          rw [hL]
          simp only [Bool.and_eq_true, decide_eq_true_eq]
          constructor
          · rintro ⟨hsc, hpp⟩
            exact Or.inr (Or.inr (Or.inr ⟨by simp, p, rfl, hp, hsc, hpp⟩))
          · rintro (h | ⟨h, _⟩ | ⟨_, hor, _⟩ | ⟨_, q, hq, hqne, hsc, hpp⟩)
            · exact absurd h (by simp)
            · exact absurd h (by simp)
            · rcases hor with h | h
              · exact absurd h (by simp)
              · exact absurd (Option.some_injective _ h) hp
            · cases Option.some_injective _ hq
              exact ⟨hsc, hpp⟩
  · intro st input r hsc hr
    obtain ⟨id, _, _, hscope, _⟩ := mem_search hr
    rw [hsc] at hscope
    exact filterByScope_global_true hscope
  · intro st input r hsc hr
    obtain ⟨id, _, _, hscope, _⟩ := mem_search hr
    rw [hsc] at hscope
    exact filterByScope_project_none_true hscope

/-- C5 witness: a concrete global item is returned by a scope-"global"
search, and the amended theorem yields that its scope is global. -/
theorem scope_filter_spec_amended_witness :
    ((⟨['1'], some SearchScope.global⟩ :
        (List Char) × Option SearchScope).2 = some SearchScope.global) ∧
      (⟨⟨['1'], ['a'], [], [], .global, none, [], []⟩, 10⟩ : SearchResult) ∈
        handleSearchKnowledge
          ⟨[['1']], [(['1'], ⟨['1'], ['a'], [], [], .global, none, [], []⟩)]⟩
          ⟨['a'], none, some .global, none⟩ ∧
      (⟨⟨['1'], ['a'], [], [], .global, none, [], []⟩, 10⟩ : SearchResult).item.scope =
        .global :=
  ⟨rfl, by decide,
    scope_filter_spec_amended.2.1
      ⟨[['1']], [(['1'], ⟨['1'], ['a'], [], [], .global, none, [], []⟩)]⟩
      ⟨['a'], none, some .global, none⟩
      ⟨⟨['1'], ['a'], [], [], .global, none, [], []⟩, 10⟩ rfl (by decide)⟩

theorem map_pairScore_sum_zero {w1 w2 : Int} {q : List Char} {l : List (List Char)}
    (h : ∀ ft ∈ l, ft ≠ q ∧ strIncludes ft q = false) :
    (l.map (pairScore w1 w2 q)).sum = 0 := by
  apply List.sum_eq_zero
  intro y hy
  obtain ⟨ft, hft, hfty⟩ := List.mem_map.mp hy
  rw [← hfty]
  unfold pairScore
  rw [if_neg (h ft hft).1, if_neg (by simp [(h ft hft).2])]

theorem calcScore_nil (item : KnowledgeItem) : calculateRelevanceScore item [] = 0 := rfl

/-- C7: an item whose every (query token, field token) pair fails both the
exact and the substring rule — total score 0 — is absent from the search
results whatever the limit and scope; a query with no tokens yields an
empty result list. -/
theorem zero_score_excluded (st : SearchStore) (input : SearchInput) (item : KnowledgeItem)
    (h : ∀ q ∈ tokenize input.query,
      (∀ tt ∈ tokenize item.title, tt ≠ q ∧ strIncludes tt q = false) ∧
      (∀ tg ∈ item.tags.map (fun t => t.map jsToLower), tg ≠ q ∧ strIncludes tg q = false) ∧
      (∀ ct ∈ tokenize item.content, ct ≠ q ∧ strIncludes ct q = false)) :
    (∀ r ∈ handleSearchKnowledge st input, r.item ≠ item) ∧
      (tokenize input.query = [] → handleSearchKnowledge st input = []) := by
  have hzero : calculateRelevanceScore item (tokenize input.query) = 0 := by
    rw [calcScore_eq_spec]
    unfold specRelevanceScore
    apply List.sum_eq_zero
    intro x hx
    obtain ⟨q, hq, hqx⟩ := List.mem_map.mp hx
    obtain ⟨hT, hG, hC⟩ := h q hq
    rw [← hqx]
    unfold queryTokenScore
    rw [map_pairScore_sum_zero hT, map_pairScore_sum_zero hG, map_pairScore_sum_zero hC]
    ring
  refine ⟨?_, ?_⟩
  · intro r hr heq
    obtain ⟨id, _, _, _, _, hscr, hpos⟩ := mem_search hr
    rw [hscr, heq, hzero] at hpos
    exact absurd hpos (by omega)
  · intro hq0
    rw [handleSearchKnowledge, rankedMatches]
    have hall : (st.indexIds.filterMap fun id =>
        match getKey st.records id with
        | none => none
        | some fullItem => scoreCandidate input fullItem) = [] := by
      apply List.filterMap_eq_nil_iff.mpr
      intro id _
      rcases hk : getKey st.records id with _ | fi
      · rfl
      · show scoreCandidate input fi = none
        unfold scoreCandidate
        rw [hq0]
        by_cases h1 : filterByScope fi (input.scope.getD .all) none = true
        · rw [if_pos h1]
          by_cases h2 : filterByTags fi input.tags = true
          · rw [if_pos h2]
            show (if 0 < calculateRelevanceScore fi [] then
                some (⟨fi, calculateRelevanceScore fi []⟩ : SearchResult)
              else none) = none
            rw [if_neg (by rw [calcScore_nil]; omega)]
          · rw [if_neg h2]
        · rw [if_neg h1]
    rw [hall]
    show jsSlice (sortByScoreDesc []) (input.limit.getD 10) = []
    rw [show sortByScoreDesc [] = [] from rfl]
    simp [jsSlice]

/-- C7 witness: a pure-punctuation query has no tokens and the search
returns the empty result list. -/
theorem zero_score_excluded_witness :
    (∀ q ∈ tokenize ['!'],
      (∀ tt ∈ tokenize (['b'] : List Char), tt ≠ q ∧ strIncludes tt q = false) ∧
      (∀ tg ∈ ([] : List (List Char)).map (fun t => t.map jsToLower),
        tg ≠ q ∧ strIncludes tg q = false) ∧
      (∀ ct ∈ tokenize (['b'] : List Char), ct ≠ q ∧ strIncludes ct q = false)) ∧
      tokenize ['!'] = [] ∧
      handleSearchKnowledge
        ⟨[['1']], [(['1'], ⟨['1'], ['b'], ['b'], [], .global, none, [], []⟩)]⟩
        ⟨['!'], none, none, none⟩ = [] :=
  ⟨by decide, by decide,
    (zero_score_excluded
      ⟨[['1']], [(['1'], ⟨['1'], ['b'], ['b'], [], .global, none, [], []⟩)]⟩
      ⟨['!'], none, none, none⟩
      ⟨['1'], ['b'], ['b'], [], .global, none, [], []⟩ (by decide)).2 (by decide)⟩

/-- C10: a negative limit is passed to `Array.prototype.slice` unchanged,
so with n ranked matches and n > |limit| the search neither fails nor
returns an empty list: it returns the first n − |limit| matches of the
ranked order (the last |limit| matches are silently dropped). -/
theorem negative_limit_slice (st : SearchStore) (input : SearchInput) (lim : Int)
    (h1 : input.limit = some lim) (h2 : lim < 0)
    (h3 : -lim < ((rankedMatches st input).length : Int)) :
    handleSearchKnowledge st input =
      (rankedMatches st input).take
        (((rankedMatches st input).length : Int) + lim).toNat ∧
      handleSearchKnowledge st input ≠ [] ∧
      ((handleSearchKnowledge st input).length : Int) =
        ((rankedMatches st input).length : Int) + lim := by
  have e1 : handleSearchKnowledge st input =
      (rankedMatches st input).take
        (((rankedMatches st input).length : Int) + lim).toNat := by
    rw [handleSearchKnowledge, h1]
    show jsSlice (rankedMatches st input) lim = _
    rw [jsSlice, if_pos h2, Int.add_comm lim ((rankedMatches st input).length : Int)]
  refine ⟨e1, ?_, ?_⟩
  · rw [e1]
    intro hempty
    have hlen := congrArg List.length hempty
    rw [List.length_take] at hlen
    simp only [List.length_nil] at hlen
    omega
  · rw [e1, List.length_take]
    omega

/-- C10 witness: two matches, limit −1: the search returns the first
ranked match only. -/
theorem negative_limit_slice_witness :
    ((⟨['a'], none, none, some (-1)⟩ : SearchInput).limit = some (-1)) ∧
      ((-1 : Int) < 0) ∧
      (-(-1 : Int) <
        ((rankedMatches
          ⟨[['1'], ['2']],
            [(['1'], ⟨['1'], ['a'], [], [], .global, none, [], []⟩),
             (['2'], ⟨['2'], ['a'], [], [], .global, none, [], []⟩)]⟩
          ⟨['a'], none, none, some (-1)⟩).length : Int)) ∧
      handleSearchKnowledge
          ⟨[['1'], ['2']],
            [(['1'], ⟨['1'], ['a'], [], [], .global, none, [], []⟩),
             (['2'], ⟨['2'], ['a'], [], [], .global, none, [], []⟩)]⟩
          ⟨['a'], none, none, some (-1)⟩ =
        (rankedMatches
          ⟨[['1'], ['2']],
            [(['1'], ⟨['1'], ['a'], [], [], .global, none, [], []⟩),
             (['2'], ⟨['2'], ['a'], [], [], .global, none, [], []⟩)]⟩
          ⟨['a'], none, none, some (-1)⟩).take
          (((rankedMatches
            ⟨[['1'], ['2']],
              [(['1'], ⟨['1'], ['a'], [], [], .global, none, [], []⟩),
               (['2'], ⟨['2'], ['a'], [], [], .global, none, [], []⟩)]⟩
            ⟨['a'], none, none, some (-1)⟩).length : Int) + (-1)).toNat :=
  ⟨rfl, by decide, by decide,
    (negative_limit_slice
      ⟨[['1'], ['2']],
        [(['1'], ⟨['1'], ['a'], [], [], .global, none, [], []⟩),
         (['2'], ⟨['2'], ['a'], [], [], .global, none, [], []⟩)]⟩
      ⟨['a'], none, none, some (-1)⟩ (-1) rfl (by decide) (by decide)).1⟩

/-! ## Knowledge repository: save

`src/index.ts` dispatches `save_knowledge` through `wrapHandler`, which
passes the raw request arguments to `handleSaveKnowledge` without running
`SaveKnowledgeInputSchema`; at runtime the declared-required `title` and
`content` can therefore be absent (`undefined`).  `RawItem` models the
schema-less JSON actually written to disk, with those two fields
optional. -/

/-- A persisted knowledge record as `handleSaveKnowledge` can actually
produce it: `title`/`content` are absent when the raw arguments lacked
them (`JSON.stringify` drops `undefined` properties). -/
structure RawItem where
  id : List Char
  title : Option (List Char)
  content : Option (List Char)
  tags : List (List Char)
  scope : ItemScope
  projectPath : Option (List Char)
  createdAt : List Char
  updatedAt : List Char
deriving DecidableEq, Repr

/-- The raw arguments of a `save_knowledge` call as the handler receives
them (no schema validation happens first). -/
structure RawSaveArgs where
  title : Option (List Char)
  content : Option (List Char)
  tags : Option (List (List Char))
  scope : Option ItemScope
  projectPath : Option (List Char)
deriving DecidableEq, Repr

/-- `KnowledgeIndex` (`src/tools/knowledge.ts`, lines 59-62): id-keyed
entries plus a last-updated stamp; entries keep `Object` insertion
order. -/
structure KnowledgeIndex where
  items : List (List Char × RawItem)
  lastUpdated : List Char
deriving DecidableEq, Repr

/-- The on-disk state owned by the store: one record file per id and the
shared index document. -/
structure Store where
  records : List (List Char × RawItem)
  index : KnowledgeIndex
deriving DecidableEq, Repr

/-- JS keyed assignment (`obj[k] = v` / overwriting the per-id file):
replace the value of an existing key in place, else append. -/
def setKey {α : Type} : List (List Char × α) → List Char → α → List (List Char × α)
  | [], k, v => [(k, v)]
  | (k', v') :: rest, k, v =>
    if k' = k then (k, v) :: rest else (k', v') :: setKey rest k v

/-- Outcome of a save call: the resulting on-disk state and whether the
handler returned normally (`ok = false` models the thrown `TypeError`). -/
structure SaveResult where
  store : Store
  ok : Bool

/-- `handleSaveKnowledge` (`src/tools/knowledge.ts`, lines 276-323) on raw
arguments.  The record file is written first (line 294).  Then
`item.content.substring(0, 200)` (line 300) runs: when `content` is
absent this throws a `TypeError` (modelled as `ok = false`) with the
record already on disk and the index untouched; otherwise the index entry
is the item with content truncated to 200 characters, and `lastUpdated`
is refreshed.  The fresh `randomUUID` and the timestamp are parameters. -/
def handleSaveKnowledge (input : RawSaveArgs) (id timestamp : List Char) (st : Store) :
    SaveResult :=
  let item : RawItem :=
    { id := id, title := input.title, content := input.content,
      tags := input.tags.getD [], scope := input.scope.getD .global,
      projectPath := input.projectPath, createdAt := timestamp, updatedAt := timestamp }
  let st1 : Store := { st with records := setKey st.records id item }
  match input.content with
  | none => { store := st1, ok := false }
  | some c =>
    { store :=
        { records := st1.records,
          index :=
            { items := setKey st1.index.items id { item with content := some (c.take 200) },
              lastUpdated := timestamp } },
      ok := true }

theorem getKey_setKey {α : Type} (l : List (List Char × α)) (k : List Char) (v : α) :
    getKey (setKey l k v) k = some v := by
  induction l with
  | nil => simp [setKey, getKey]
  | cons p rest ih =>
    obtain ⟨k', v'⟩ := p
    by_cases h : k' = k
    · subst h
      simp [setKey, getKey]
    · simp only [setKey, if_neg h, getKey]
      exact ih

theorem getKey_setKey_ne {α : Type} {k key : List Char} (h : key ≠ k)
    (l : List (List Char × α)) (v : α) :
    getKey (setKey l k v) key = getKey l key := by
  induction l with
  | nil =>
    show (if k = key then some v else getKey [] key) = getKey [] key
    rw [if_neg (Ne.symm h)]
  | cons p rest ih =>
    obtain ⟨k', v'⟩ := p
    by_cases hk : k' = k
    · subst hk
      have hset : setKey ((k', v') :: rest) k' v = (k', v) :: rest := by
        simp [setKey]
      rw [hset]
      show (if k' = key then some v else getKey rest key) =
        (if k' = key then some v' else getKey rest key)
      rw [if_neg (fun hh => h hh.symm), if_neg (fun hh => h hh.symm)]
    · simp only [setKey, if_neg hk, getKey]
      by_cases h2 : k' = key
      · rw [if_pos h2, if_pos h2]
      · rw [if_neg h2, if_neg h2]
        exact ih

/-- C2 evaluated at the failing inputs: a save whose raw arguments lack
`title` succeeds outright — no validation error, record file written,
index updated; a save lacking `content` writes the record file and then
fails with a `TypeError` from `content.substring`, not a validation
error.  No schema parse guards the handler. -/
theorem save_missing_fields_behavior :
    ((handleSaveKnowledge ⟨none, some ['c'], none, none, none⟩ ['1'] ['t']
        ⟨[], ⟨[], []⟩⟩).ok = true
      ∧ (handleSaveKnowledge ⟨none, some ['c'], none, none, none⟩ ['1'] ['t']
        ⟨[], ⟨[], []⟩⟩).store.records ≠ []
      ∧ (handleSaveKnowledge ⟨none, some ['c'], none, none, none⟩ ['1'] ['t']
        ⟨[], ⟨[], []⟩⟩).store.index.items ≠ [])
    ∧ ((handleSaveKnowledge ⟨some ['t'], none, none, none, none⟩ ['2'] ['t']
        ⟨[], ⟨[], []⟩⟩).ok = false
      ∧ (handleSaveKnowledge ⟨some ['t'], none, none, none, none⟩ ['2'] ['t']
        ⟨[], ⟨[], []⟩⟩).store.records ≠ []) := by
  decide

/-- C3 counterexample: a successful save with scope "global" and a
supplied `projectPath` stores the path on the item — `projectPath` is
present although the scope is not `project`. -/
theorem save_projectPath_ignores_scope_cex :
    (handleSaveKnowledge ⟨some ['t'], some ['c'], none, some .global, some ['/', 'x']⟩
        ['1'] ['s'] ⟨[], ⟨[], []⟩⟩).ok = true
    ∧ getKey (handleSaveKnowledge ⟨some ['t'], some ['c'], none, some .global,
        some ['/', 'x']⟩ ['1'] ['s'] ⟨[], ⟨[], []⟩⟩).store.records ['1'] =
      some ⟨['1'], some ['t'], some ['c'], [], .global, some ['/', 'x'], ['s'], ['s']⟩
    ∧ (⟨['1'], some ['t'], some ['c'], [], .global, some ['/', 'x'], ['s'], ['s']⟩ :
        RawItem).scope ≠ .project
    ∧ (⟨['1'], some ['t'], some ['c'], [], .global, some ['/', 'x'], ['s'], ['s']⟩ :
        RawItem).projectPath ≠ none := by
  decide

/-- C3 (amended): the created record stores `projectPath` exactly as
supplied — present iff the caller passed it, independent of scope and
with no emptiness check — and `scope` defaults to global; `title` and
`content` are stored as given. -/
theorem save_stores_projectPath_as_supplied (input : RawSaveArgs) (id ts : List Char)
    (st : Store) (item : RawItem)
    (h : getKey (handleSaveKnowledge input id ts st).store.records id = some item) :
    item.projectPath = input.projectPath ∧ item.scope = input.scope.getD .global ∧
      item.title = input.title ∧ item.content = input.content := by
  have hrec : (handleSaveKnowledge input id ts st).store.records =
      setKey st.records id ⟨id, input.title, input.content, input.tags.getD [],
        input.scope.getD .global, input.projectPath, ts, ts⟩ := by
    cases hc : input.content <;> simp [handleSaveKnowledge, hc]
  rw [hrec, getKey_setKey] at h
  obtain rfl := Option.some_injective _ h
  exact ⟨rfl, rfl, rfl, rfl⟩

/-- C3 amended-claim witness at a concrete saved record. -/
theorem save_stores_projectPath_as_supplied_witness :
    getKey (handleSaveKnowledge ⟨some ['t'], some ['c'], none, some .global,
        some ['/', 'x']⟩ ['1'] ['s'] ⟨[], ⟨[], []⟩⟩).store.records ['1'] =
      some ⟨['1'], some ['t'], some ['c'], [], .global, some ['/', 'x'], ['s'], ['s']⟩ ∧
    ((⟨['1'], some ['t'], some ['c'], [], .global, some ['/', 'x'], ['s'], ['s']⟩ :
        RawItem).projectPath =
      (⟨some ['t'], some ['c'], none, some .global, some ['/', 'x']⟩ :
        RawSaveArgs).projectPath ∧
    (⟨['1'], some ['t'], some ['c'], [], .global, some ['/', 'x'], ['s'], ['s']⟩ :
        RawItem).scope =
      (⟨some ['t'], some ['c'], none, some .global, some ['/', 'x']⟩ :
        RawSaveArgs).scope.getD .global ∧
    (⟨['1'], some ['t'], some ['c'], [], .global, some ['/', 'x'], ['s'], ['s']⟩ :
        RawItem).title =
      (⟨some ['t'], some ['c'], none, some .global, some ['/', 'x']⟩ :
        RawSaveArgs).title ∧
    (⟨['1'], some ['t'], some ['c'], [], .global, some ['/', 'x'], ['s'], ['s']⟩ :
        RawItem).content =
      (⟨some ['t'], some ['c'], none, some .global, some ['/', 'x']⟩ :
        RawSaveArgs).content) :=
  ⟨by decide,
    save_stores_projectPath_as_supplied
      ⟨some ['t'], some ['c'], none, some .global, some ['/', 'x']⟩ ['1'] ['s']
      ⟨[], ⟨[], []⟩⟩
      ⟨['1'], some ['t'], some ['c'], [], .global, some ['/', 'x'], ['s'], ['s']⟩
      (by decide)⟩

/-- C4's invariant: every indexed id has a full record whose content is
present, and the index entry's content is a prefix of it — equal when the
record content has at most 200 characters, else exactly the first 200. -/
def indexConsistent (st : Store) : Prop :=
  ∀ id entry, getKey st.index.items id = some entry →
    ∃ item c, getKey st.records id = some item ∧ item.content = some c ∧
      ∃ ec, entry.content = some ec ∧ ec <+: c ∧
        (c.length ≤ 200 → ec = c) ∧ (200 < c.length → ec = c.take 200)

/-- C4: a save with a fresh id — whether it completes or throws after the
record write — preserves the index/record content-prefix consistency. -/
theorem save_preserves_index_content_consistency (input : RawSaveArgs) (id ts : List Char)
    (st : Store) (hfresh : getKey st.index.items id = none) (hinv : indexConsistent st) :
    indexConsistent (handleSaveKnowledge input id ts st).store := by
  cases hc : input.content with
  | none =>
    have hrec : (handleSaveKnowledge input id ts st).store.records =
        setKey st.records id ⟨id, input.title, input.content, input.tags.getD [],
          input.scope.getD .global, input.projectPath, ts, ts⟩ := by
      simp [handleSaveKnowledge, hc]
    have hidx : (handleSaveKnowledge input id ts st).store.index = st.index := by
      simp [handleSaveKnowledge, hc]
    intro id' entry h'
    rw [hidx] at h'
    have hne : id' ≠ id := by
      rintro rfl
      rw [hfresh] at h'
      exact absurd h' (by simp)
    obtain ⟨item, c, hpit, hcont, ec, hec, hpre, hle, hgt⟩ := hinv id' entry h'
    refine ⟨item, c, ?_, hcont, ec, hec, hpre, hle, hgt⟩
    rw [hrec, getKey_setKey_ne hne]
    exact hpit
  | some c =>
    have hrec : (handleSaveKnowledge input id ts st).store.records =
        setKey st.records id ⟨id, input.title, some c, input.tags.getD [],
          input.scope.getD .global, input.projectPath, ts, ts⟩ := by
      simp [handleSaveKnowledge, hc]
    have hidx : (handleSaveKnowledge input id ts st).store.index.items =
        setKey st.index.items id ⟨id, input.title, some (c.take 200), input.tags.getD [],
          input.scope.getD .global, input.projectPath, ts, ts⟩ := by
      simp [handleSaveKnowledge, hc]
    intro id' entry h'
    rw [hidx] at h'
    by_cases he : id' = id
    · subst he
      rw [getKey_setKey] at h'
      obtain rfl := Option.some_injective _ h'
      refine ⟨⟨id', input.title, some c, input.tags.getD [], input.scope.getD .global,
          input.projectPath, ts, ts⟩, c, ?_, rfl,
        c.take 200, rfl, ⟨c.drop 200, List.take_append_drop 200 c⟩, ?_, ?_⟩
      · rw [hrec]
        exact getKey_setKey _ _ _
      · intro hlen
        exact List.take_of_length_le hlen
      · intro _
        rfl
    · rw [getKey_setKey_ne he] at h'
      obtain ⟨item, c', hpit, hcont, ec, hec, hpre, hle, hgt⟩ := hinv id' entry h'
      refine ⟨item, c', ?_, hcont, ec, hec, hpre, hle, hgt⟩
      rw [hrec, getKey_setKey_ne he]
      exact hpit

/-- C4 witness: saving into the empty store yields a consistent store. -/
theorem save_preserves_index_content_consistency_witness :
    getKey (⟨[], ⟨[], []⟩⟩ : Store).index.items ['1'] = none ∧
      indexConsistent ⟨[], ⟨[], []⟩⟩ ∧
      indexConsistent (handleSaveKnowledge ⟨some ['t'], some ['c'], none, none, none⟩
        ['1'] ['s'] ⟨[], ⟨[], []⟩⟩).store :=
  ⟨rfl, fun id entry h => by simp [getKey] at h,
    save_preserves_index_content_consistency
      ⟨some ['t'], some ['c'], none, none, none⟩ ['1'] ['s'] ⟨[], ⟨[], []⟩⟩ rfl
      (fun id entry h => by simp [getKey] at h)⟩
